import Mathlib

/-!
Shallow embedding of `scripts/make_pack.py`: the TF-IDF resume-pack builder.
Python strings are modelled as Lean `String` (lists of unicode characters),
machine floats as real numbers, and the fatal `SystemExit` of `build_pack`
as `Except.error`.  Scanner loops that consume a variable number of
characters per step are written with an explicit fuel argument (fuel is
always instantiated with the length of the scanned list, which suffices
because every step consumes at least one character); exhausted fuel yields
`[]`, which is never reached from the public wrappers.
-/

deriving instance DecidableEq for Except

namespace MakePack

/-- The apostrophe character (codepoint 39). -/
def apos : Char := Char.ofNat 39

/-- Helper gluing two string halves with an apostrophe, used to spell the
stopwords that contain one. -/
def ap (a b : String) : String := a ++ String.mk [apos] ++ b

/-- Whitespace characters recognised by Python `str.strip`, `str.split` and
the regex class `\s` (restricted to ASCII, which is all the pipeline ever
feeds them). -/
def isPyWs (c : Char) : Bool :=
  c == ' ' || c == '\t' || c == '\n' || c == '\r' || c == Char.ofNat 11 || c == Char.ofNat 12

/-- Characters matched by the class `[A-Za-z0-9]` of `TOKEN_PATTERN`. -/
def isWordChar (c : Char) : Bool := c.isAlpha || c.isDigit

/-- Python `str.replace(pat, rep)`: leftmost, non-overlapping replacement of
every occurrence of `pat`, scanning left to right.  Fuel-driven so that the
definition is structurally recursive and computes by `decide`. -/
def pyReplaceFuel (pat rep : List Char) : Nat → List Char → List Char
  | 0, _ => []
  | _ + 1, [] => []
  | f + 1, c :: rest =>
    if pat ≠ [] ∧ (c :: rest).take pat.length = pat then
      rep ++ pyReplaceFuel pat rep f ((c :: rest).drop pat.length)
    else
      c :: pyReplaceFuel pat rep f rest

/-- Python `str.replace` on character lists. -/
def pyReplace (pat rep l : List Char) : List Char := pyReplaceFuel pat rep l.length l

/-- Replacement of a single character by another one, as done for each
bullet glyph and each unicode dash glyph in `normalize_text`. -/
def charReplace (a b : Char) (l : List Char) : List Char :=
  l.map fun c => if c = a then b else c

/-- The regex substitution `re.sub(r"[ \t]+\n", "\n", s)` of `normalize_text`:
a maximal run of spaces and tabs immediately followed by a newline is
replaced by the newline alone. -/
def subSpaceNlFuel : Nat → List Char → List Char
  | 0, _ => []
  | _ + 1, [] => []
  | f + 1, c :: rest =>
    if c = ' ' ∨ c = '\t' then
      let tail := rest.dropWhile (fun d => d = ' ' ∨ d = '\t')
      if tail.head? = some '\n' then '\n' :: subSpaceNlFuel f tail.tail
      else c :: subSpaceNlFuel f rest
    else
      c :: subSpaceNlFuel f rest

/-- The regex substitution `re.sub(r"\n{3,}", "\n\n", s)` of `normalize_text`:
every maximal run of three or more newlines collapses to exactly two. -/
def subCollapseNlFuel : Nat → List Char → List Char
  | 0, _ => []
  | _ + 1, [] => []
  | f + 1, c :: rest =>
    if c = '\n' then
      let run := rest.takeWhile (fun d => d = '\n')
      let tail := rest.dropWhile (fun d => d = '\n')
      if 2 ≤ run.length then '\n' :: '\n' :: subCollapseNlFuel f tail
      else (c :: run) ++ subCollapseNlFuel f tail
    else
      c :: subCollapseNlFuel f rest

/-- The regex substitution `re.sub(r"\n-\s*", "\n- ", s)` of `normalize_text`:
a newline followed by a hyphen and any run of whitespace becomes a newline,
hyphen and single space. -/
def subBulletFuel : Nat → List Char → List Char
  | 0, _ => []
  | _ + 1, [] => []
  | f + 1, c :: rest =>
    if c = '\n' ∧ rest.head? = some '-' then
      '\n' :: '-' :: ' ' :: subBulletFuel f (rest.tail.dropWhile isPyWs)
    else c :: subBulletFuel f rest

/-- The regex substitution `re.sub(r"\s{2,}", " ", s)` used by the `flush`
helper of `split_chunks`: every maximal run of two or more whitespace
characters collapses to a single space (a lone whitespace character is kept
as it is). -/
def collapseWsFuel : Nat → List Char → List Char
  | 0, _ => []
  | _ + 1, [] => []
  | f + 1, c :: rest =>
    if isPyWs c then
      let run := rest.takeWhile isPyWs
      let tail := rest.dropWhile isPyWs
      if 1 ≤ run.length then ' ' :: collapseWsFuel f tail
      else c :: collapseWsFuel f rest
    else
      c :: collapseWsFuel f rest

/-- Drop trailing whitespace, the right half of Python `str.strip`. -/
def dropTrailWs : List Char → List Char
  | [] => []
  | c :: rest =>
    let r := dropTrailWs rest
    if r = [] ∧ isPyWs c then [] else c :: r

/-- Python `str.strip()` on character lists. -/
def pyStripChars (l : List Char) : List Char := dropTrailWs (l.dropWhile isPyWs)

/-- Python `str.strip()`. -/
def pyStrip (s : String) : String := String.mk (pyStripChars s.data)

/-- Python `str.split()` (no separator): the maximal non-whitespace runs. -/
def pySplitWs (l : List Char) : List (List Char) :=
  (List.splitOnP isPyWs l).filter (fun w => w ≠ [])

/-- Number of whitespace-separated words of a string, i.e.
`len(s.split())` in Python. -/
def wordCount (s : String) : Nat := (pySplitWs s.data).length

/-- Python `str.splitlines()` restricted to the line terminators `\r\n`,
`\r` and `\n` (the only ones the pipeline can encounter); `cur` is the
accumulator for the current line. -/
def pySplitlinesChars (cur : List Char) : List Char → List (List Char)
  | [] => if cur = [] then [] else [cur]
  | '\r' :: '\n' :: rest => cur :: pySplitlinesChars [] rest
  | '\r' :: rest => cur :: pySplitlinesChars [] rest
  | '\n' :: rest => cur :: pySplitlinesChars [] rest
  | c :: rest => pySplitlinesChars (cur ++ [c]) rest

/-- Python `str.splitlines()`. -/
def pySplitlines (s : String) : List String :=
  (pySplitlinesChars [] s.data).map String.mk

/-- The `BULLET_CHARS` constant of `make_pack.py` (the string literal holds
five glyphs, the black small square appearing twice, the second time
followed by variation selector 15). -/
def bulletChars : List Char :=
  [Char.ofNat 0x2022, Char.ofNat 0x25CF, Char.ofNat 0x25AA, Char.ofNat 0x25AA,
   Char.ofNat 0xFE0E, Char.ofNat 0x25E6, Char.ofNat 0x25C9]

/-- The `UNICODE_DASHES` constant of `make_pack.py`. -/
def unicodeDashes : List Char :=
  [Char.ofNat 0x2012, Char.ofNat 0x2013, Char.ofNat 0x2014, Char.ofNat 0x2015,
   Char.ofNat 0x2212]

/-- The `normalize_text` function of `make_pack.py`, step for step: CRLF
replacement, bullet and dash glyph replacement, the three regex
substitutions, the ASCII filter (`encode("ascii", "ignore")`), the three
extraction-glyph label substitutions, and the final `strip`. -/
def normalizeText (raw : String) : String :=
  let s := pyReplace ['\r', '\n'] ['\n'] raw.data
  let s := bulletChars.foldl (fun acc ch => charReplace ch '-' acc) s
  let s := unicodeDashes.foldl (fun acc ch => charReplace ch '-' acc) s
  let s := subSpaceNlFuel s.length s
  let s := subCollapseNlFuel s.length s
  let s := subBulletFuel s.length s
  let s := s.filter (fun c => c.toNat < 128)
  let s := pyReplace "ap-arker-alt".data "Location: ".data s
  let s := pyReplace "/envelpe".data " Email: ".data s
  let s := pyReplace "phone-alt".data " Phone: ".data s
  String.mk (pyStripChars s)

/-- `stripped.startswith("-")`, the bullet test of `split_chunks`. -/
def startsDash (s : String) : Bool :=
  match s.data with
  | c :: _ => c == '-'
  | [] => false

/-- A string beginning with a hyphen followed by a space, the bullet shape
named by the specification. -/
def begDashSpace (s : String) : Bool :=
  match s.data with
  | c :: d :: _ => c == '-' && d == ' '
  | _ => false

/-- The body of the `flush` helper of `split_chunks`: join the accumulated
lines with single spaces, strip, collapse interior whitespace runs, and
append the result to the chunk list only when it has at least five
whitespace-separated words; an empty accumulator flushes to nothing. -/
def segFlush (chunks current : List String) : List String :=
  if current = [] then chunks
  else
    let joined := pyStripChars (String.intercalate " " current).data
    let chunk := String.mk (collapseWsFuel joined.length joined)
    if 5 ≤ wordCount chunk then chunks ++ [chunk] else chunks

/-- State of the `split_chunks` loop: emitted chunks plus the accumulator of
current chunk lines. -/
structure SegState where
  chunks : List String
  current : List String
deriving DecidableEq

/-- One iteration of the `split_chunks` line loop: a blank line flushes, a
line whose stripped form starts with a hyphen flushes first when the
accumulator is non-empty, and every non-blank stripped line is appended to
the accumulator. -/
def segStep (st : SegState) (line : String) : SegState :=
  let stripped := pyStrip line
  if stripped = "" then ⟨segFlush st.chunks st.current, []⟩
  else if startsDash stripped ∧ st.current ≠ [] then
    ⟨segFlush st.chunks st.current, [stripped]⟩
  else
    ⟨st.chunks, st.current ++ [stripped]⟩

/-- The `split_chunks` function of `make_pack.py`. -/
def splitChunks (text : String) : List String :=
  let final := (pySplitlines text).foldl segStep ⟨[], []⟩
  segFlush final.chunks final.current

/-- Candidate-collecting variant of `segFlush`: the joined and cleaned chunk
is recorded without the five-word filter.  Used to speak about candidate
chunks that `split_chunks` discards. -/
def candFlush (chunks current : List String) : List String :=
  if current = [] then chunks
  else
    let joined := pyStripChars (String.intercalate " " current).data
    chunks ++ [String.mk (collapseWsFuel joined.length joined)]

/-- Candidate-collecting variant of `segStep` (same control flow, no
five-word filter on flush). -/
def candStep (st : SegState) (line : String) : SegState :=
  let stripped := pyStrip line
  if stripped = "" then ⟨candFlush st.chunks st.current, []⟩
  else if startsDash stripped ∧ st.current ≠ [] then
    ⟨candFlush st.chunks st.current, [stripped]⟩
  else
    ⟨st.chunks, st.current ++ [stripped]⟩

/-- All candidate chunks produced at flush points of the `split_chunks`
loop, before the five-word filter. -/
def segCandidates (text : String) : List String :=
  let final := (pySplitlines text).foldl candStep ⟨[], []⟩
  candFlush final.chunks final.current

/-- The `STOPWORDS` constant of `make_pack.py`, in source order (the
apostrophes of the contraction forms are spelled through `ap`). -/
def STOPWORDS : List String :=
  ["a", "about", "above", "after", "again", "against", "all", "am", "an", "and",
   "any", "are", ap "aren" "t", "as", "at", "be", "because", "been",
   "before", "being", "below", "between", "both", "but", "by", "can",
   ap "can" "t", "could", ap "couldn" "t", "did", ap "didn" "t", "do", "does",
   ap "doesn" "t", "doing", ap "don" "t", "down", "during", "each", "few",
   "for", "from", "further", "had", ap "hadn" "t", "has", ap "hasn" "t",
   "have", ap "haven" "t", "having", "he", ap "he" "d", ap "he" "ll",
   ap "he" "s", "her", "here", ap "here" "s", "hers", "herself", "him",
   "himself", "his", "how", ap "how" "s", "i", ap "i" "d", ap "i" "ll",
   ap "i" "m", ap "i" "ve", "if", "in", "into", "is", ap "isn" "t", "it",
   ap "it" "s", "its", "itself", ap "let" "s", "me", "more", "most",
   ap "mustn" "t", "my", "myself", "no", "nor", "not", "of", "off", "on",
   "once", "only", "or", "other", "ought", "our", "ours", "ourselves",
   "out", "over", "own", "same", ap "shan" "t", "she", ap "she" "d",
   ap "she" "ll", ap "she" "s", "should", ap "shouldn" "t", "so", "some",
   "such", "than", "that", ap "that" "s", "the", "their", "theirs", "them",
   "themselves", "then", "there", ap "there" "s", "these", "they",
   ap "they" "d", ap "they" "ll", ap "they" "re", ap "they" "ve", "this",
   "those", "through", "to", "too", "under", "until", "up", "very", "was",
   ap "wasn" "t", "we", ap "we" "d", ap "we" "ll", ap "we" "re",
   ap "we" "ve", "were", ap "weren" "t", "what", ap "what" "s", "when",
   ap "when" "s", "where", ap "where" "s", "which", "while", "who",
   ap "who" "s", "whom", "why", ap "why" "s", "with", ap "won" "t",
   "would", ap "wouldn" "t", "you", ap "you" "d", ap "you" "ll",
   ap "you" "re", ap "you" "ve", "your", "yours", "yourself", "yourselves"]

/-- The scanner of `TOKEN_PATTERN.finditer`: maximal matches of
`[A-Za-z0-9]+` optionally extended, greedily, by an apostrophe and a second
`[A-Za-z0-9]+` run; scanning resumes after each match. -/
def scanTokensFuel : Nat → List Char → List (List Char)
  | 0, _ => []
  | _ + 1, [] => []
  | f + 1, c :: rest =>
    if isWordChar c then
      let run1 := c :: rest.takeWhile isWordChar
      let tail1 := rest.dropWhile isWordChar
      match tail1 with
      | q :: d :: tail2 =>
        if q = apos ∧ isWordChar d then
          let run2 := d :: tail2.takeWhile isWordChar
          let tail3 := tail2.dropWhile isWordChar
          (run1 ++ q :: run2) :: scanTokensFuel f tail3
        else run1 :: scanTokensFuel f tail1
      | _ => run1 :: scanTokensFuel f tail1
    else
      scanTokensFuel f rest

/-- Python `str.isdigit` on a regex token (tokens are never empty). -/
def isAllDigits (l : List Char) : Bool := l.all Char.isDigit

/-- The `tokenize` function of `make_pack.py`: lowercase, scan for
`TOKEN_PATTERN` matches, and drop pure-digit tokens and stopwords. -/
def tokenize (text : String) : List String :=
  let lowered := text.data.map Char.toLower
  ((scanTokensFuel lowered.length lowered).map String.mk).filter
    (fun t => !isAllDigits t.data && !STOPWORDS.contains t)

/-- One chunk entry of the pack: the original chunk text and its sparse
term-frequency vector of `(vocabulary index, raw count)` pairs sorted by
index, exactly the `"text"` and `"tf"` fields written by `build_pack` (the
real-valued `"norm"` field is recovered by `chunkNorm` below). -/
structure ChunkEntry where
  text : String
  tf : List (Nat × Nat)
deriving DecidableEq

/-- The combinatorial content of the pack assembled by `build_pack`:
vocabulary, number of surviving chunks, the sorted `(index, document
frequency)` pairs from which the stored `idf_pairs` floats are computed
pointwise by `ln((1 + numDocs) / (1 + df)) + 1.0`, and the chunk entries.
The metadata fields (`schema`, `source`, `created`) carry no algorithmic
content and are omitted. -/
structure PackCore where
  vocab : List String
  numDocs : Nat
  dfPairs : List (Nat × Nat)
  chunks : List ChunkEntry
deriving DecidableEq

/-- Lexicographic order on pairs of naturals, the order `sorted` uses on
the tuples built by `build_pack` (their first components are distinct, so
only the first component ever decides). -/
def pairLe (a b : Nat × Nat) : Prop := a.1 < b.1 ∨ (a.1 = b.1 ∧ a.2 ≤ b.2)

instance : DecidableRel pairLe := fun a b => by
  unfold pairLe; infer_instance

/-- Python `sorted` on lists of natural-number pairs. -/
def sortPairs (l : List (Nat × Nat)) : List (Nat × Nat) := List.insertionSort pairLe l

/-- Lexicographic comparison of character lists by codepoint, which is how
Python compares strings. -/
def charListLe : List Char → List Char → Bool
  | [], _ => true
  | _ :: _, [] => false
  | a :: as, b :: bs =>
    if a.toNat < b.toNat then true
    else if b.toNat < a.toNat then false
    else charListLe as bs

/-- Python string comparison (lexicographic on codepoints), as a
relation. -/
def strLe (a b : String) : Prop := charListLe a.data b.data = true

instance : DecidableRel strLe := fun a b => by
  unfold strLe; infer_instance

/-- Python `sorted` on lists of strings (lexicographic on codepoints). -/
def sortStrings (l : List String) : List String := List.insertionSort strLe l

/-- Whether a character list contains three consecutive newline characters
anywhere (the runs the substitution `re.sub(r"\n{3,}", "\n\n", s)` is meant
to eliminate). -/
def hasTriple : List Char → Bool
  | a :: b :: c :: rest =>
    ((a == '\n') && (b == '\n') && (c == '\n')) || hasTriple (b :: c :: rest)
  | _ => false

/-- Whether every carriage return of a character list is immediately
followed by a newline, i.e. all CR characters occur inside CRLF pairs. -/
def crlfOk : List Char → Bool
  | [] => true
  | c :: rest => (!(c == '\r') || rest.head? == some '\n') && crlfOk rest

/-- Whether a string consists of ASCII characters only. -/
def allAscii (s : String) : Bool := s.data.all (fun c => c.toNat < 128)

theorem charListLe_total (a b : List Char) :
    charListLe a b = true ∨ charListLe b a = true := by
  induction a generalizing b with
  | nil => left; rfl
  | cons x xs ih =>
    cases b with
    | nil => right; rfl
    | cons y ys =>
      unfold charListLe
      by_cases h1 : x.toNat < y.toNat
      · left; rw [if_pos h1]
      · by_cases h2 : y.toNat < x.toNat
        · right; rw [if_pos h2]
        · rw [if_neg h1, if_neg h2, if_neg h2, if_neg h1]
          exact ih ys

theorem charListLe_trans : ∀ {a b c : List Char},
    charListLe a b = true → charListLe b c = true → charListLe a c = true := by
  intro a
  induction a with
  | nil => intro b c _ _; rfl
  | cons x xs ih =>
    intro b c hab hbc
    cases b with
    | nil => simp [charListLe] at hab
    | cons y ys =>
      cases c with
      | nil => simp [charListLe] at hbc
      | cons z zs =>
        unfold charListLe at hab hbc ⊢
        by_cases hxy : x.toNat < y.toNat
        · rw [if_pos hxy] at hab
          by_cases hyz : y.toNat < z.toNat
          · rw [if_pos (by omega : x.toNat < z.toNat)]
          · rw [if_neg hyz] at hbc
            by_cases hzy : z.toNat < y.toNat
            · rw [if_pos hzy] at hbc; cases hbc
            · rw [if_pos (by omega : x.toNat < z.toNat)]
        · rw [if_neg hxy] at hab
          by_cases hyx : y.toNat < x.toNat
          · rw [if_pos hyx] at hab; cases hab
          · rw [if_neg hyx] at hab
            by_cases hyz : y.toNat < z.toNat
            · rw [if_pos (by omega : x.toNat < z.toNat)]
            · rw [if_neg hyz] at hbc
              by_cases hzy : z.toNat < y.toNat
              · rw [if_pos hzy] at hbc; cases hbc
              · rw [if_neg hzy] at hbc
                rw [if_neg (by omega : ¬x.toNat < z.toNat),
                  if_neg (by omega : ¬z.toNat < x.toNat)]
                exact ih hab hbc

theorem charListLe_antisymm : ∀ {a b : List Char},
    charListLe a b = true → charListLe b a = true → a = b := by
  intro a
  induction a with
  | nil =>
    intro b _ hba
    cases b with
    | nil => rfl
    | cons y ys => simp [charListLe] at hba
  | cons x xs ih =>
    intro b hab hba
    cases b with
    | nil => simp [charListLe] at hab
    | cons y ys =>
      unfold charListLe at hab hba
      by_cases hxy : x.toNat < y.toNat
      · rw [if_neg (by omega : ¬y.toNat < x.toNat), if_pos hxy] at hba
        cases hba
      · by_cases hyx : y.toNat < x.toNat
        · rw [if_neg hxy, if_pos hyx] at hab; cases hab
        · rw [if_neg hxy, if_neg hyx] at hab
          rw [if_neg hyx, if_neg hxy] at hba
          have hx : x = y := by
            rw [← Char.ofNat_toNat x, ← Char.ofNat_toNat y]
            congr 1
            omega
          rw [hx, ih hab hba]

instance : IsTotal String strLe := ⟨fun a b => charListLe_total a.data b.data⟩

instance : IsTrans String strLe := ⟨fun _ _ _ => charListLe_trans⟩

instance : IsAntisymm String strLe :=
  ⟨fun _ _ h1 h2 => String.ext (charListLe_antisymm h1 h2)⟩

/-- The `(original, tokens)` pairs surviving the five-token filter at the
top of `build_pack` (`zip` of the chunks with their tokenizations, filtered
by `len(tokens) >= 5`). -/
def survivors (chunks : List String) : List (String × List String) :=
  (chunks.zip (chunks.map tokenize)).filter (fun p => 5 ≤ p.2.length)

/-- The vocabulary of `build_pack`: the distinct tokens of the surviving
chunks (the keys of `vocab_counter`), sorted. -/
def vocabOf (cs : List String) : List String :=
  sortStrings (((survivors cs).map (fun p => p.2)).flatten.dedup)

/-- The per-chunk sparse term-frequency vectors of `build_pack`: for each
surviving chunk, pair the vocabulary index of each distinct token with its
raw occurrence count (`collections.Counter(tokens).items()`), sorted. -/
def chunkTfOf (cs : List String) : List (List (Nat × Nat)) :=
  (survivors cs).map (fun p =>
    sortPairs (p.2.dedup.map (fun t => ((vocabOf cs).indexOf t, p.2.count t))))

/-- The distinct vocabulary indices present in at least one chunk, i.e. the
keys of the `doc_freq` counter of `build_pack`. -/
def allIdxOf (cs : List String) : List Nat :=
  ((chunkTfOf cs).map (fun v => v.map Prod.fst)).flatten.dedup

/-- `doc_freq[i]` of `build_pack`: the number of surviving chunks whose
term-frequency vector mentions index `i` (each chunk counted once). -/
def docFreqOf (cs : List String) (i : Nat) : Nat :=
  ((chunkTfOf cs).filter (fun v => decide (i ∈ v.map Prod.fst))).length

/-- The `(index, df)` pairs underlying `idf_pairs`, sorted by index exactly
as `idf_pairs = sorted((idx, idf_values[idx]) for idx in idf_values)`. -/
def dfPairsOf (cs : List String) : List (Nat × Nat) :=
  sortPairs ((allIdxOf cs).map (fun i => (i, docFreqOf cs i)))

/-- The chunk entries of `build_pack` (`text` and `tf` fields). -/
def entriesOf (cs : List String) : List ChunkEntry :=
  ((survivors cs).zip (chunkTfOf cs)).map (fun pc => ⟨pc.1.1, pc.2⟩)

/-- The message of the `SystemExit` raised by `build_pack` when no chunk
survives the five-token filter. -/
def emptyIndexMsg : String :=
  "No chunks with sufficient tokens were extracted from the PDF."

/-- The `build_pack` function of `make_pack.py`: the fatal `SystemExit` on
an empty filtered chunk list is modelled as `Except.error`; otherwise the
pack fields are assembled as above. -/
def buildPack (cs : List String) : Except String PackCore :=
  if survivors cs = [] then Except.error emptyIndexMsg
  else Except.ok ⟨vocabOf cs, (survivors cs).length, dfPairsOf cs, entriesOf cs⟩

/-- The smoothed IDF weight `math.log((1 + num_docs) / (1 + df)) + 1.0`
computed by `build_pack`, over the reals. -/
noncomputable def idfValue (numDocs df : Nat) : ℝ :=
  Real.log ((1 + (numDocs : ℝ)) / (1 + (df : ℝ))) + 1

/-- The `idf_pairs` list stored in the pack: each `(index, df)` pair of the
core carries the real IDF value `idf_values[idx]`. -/
noncomputable def packIdfPairs (p : PackCore) : List (Nat × ℝ) :=
  p.dfPairs.map (fun x => (x.1, idfValue p.numDocs x.2))

/-- The IDF value `idf_values[idx]` used when weighting chunk vectors (every
index present in a chunk has an entry in `dfPairs`; the default is never
hit). -/
noncomputable def idfAt (p : PackCore) (i : Nat) : ℝ :=
  idfValue p.numDocs ((p.dfPairs.lookup i).getD 0)

/-- The accumulated `norm_sum` of `build_pack` for one chunk entry: the sum
of the squared TF-IDF weights `raw_tf * idf_values[idx]` over the entries
of its term-frequency vector. -/
noncomputable def chunkNormSq (p : PackCore) (e : ChunkEntry) : ℝ :=
  (e.tf.map (fun x => ((x.2 : ℝ) * idfAt p x.1) ^ 2)).sum

/-- The `"norm"` field of a chunk entry:
`math.sqrt(norm_sum) if norm_sum else 1.0`. -/
noncomputable def chunkNorm (p : PackCore) (e : ChunkEntry) : ℝ :=
  if chunkNormSq p e = 0 then 1 else Real.sqrt (chunkNormSq p e)

/-- Document frequency read off the finished pack, in the words of the
specification: the number of chunk entries whose `tf` vector contains the
index with a nonzero count. -/
def dfInPack (p : PackCore) (i : Nat) : Nat :=
  (p.chunks.filter (fun e => e.tf.any (fun x => x.1 == i && !(x.2 == 0)))).length

/-- The tokens of the surviving chunks, whose underlying set determines the
vocabulary. -/
def survivingTokens (cs : List String) : List String :=
  ((survivors cs).map (fun p => p.2)).flatten

/-- Concrete input used to exercise the pipeline: a single chunk of five
distinct non-stopword tokens. -/
def csW : List String := ["alpha beta gamma delta epsilon"]

/-- A second input with the same token set in a different order. -/
def csW2 : List String := ["beta alpha gamma delta epsilon"]

/-- The pack `build_pack` produces from `csW`. -/
def packW : PackCore :=
  ⟨["alpha", "beta", "delta", "epsilon", "gamma"], 1,
   [(0, 1), (1, 1), (2, 1), (3, 1), (4, 1)],
   [⟨"alpha beta gamma delta epsilon", [(0, 1), (1, 1), (2, 1), (3, 1), (4, 1)]⟩]⟩

/-- The pack `build_pack` produces from `csW2`. -/
def packW2 : PackCore :=
  ⟨["alpha", "beta", "delta", "epsilon", "gamma"], 1,
   [(0, 1), (1, 1), (2, 1), (3, 1), (4, 1)],
   [⟨"beta alpha gamma delta epsilon", [(0, 1), (1, 1), (2, 1), (3, 1), (4, 1)]⟩]⟩

/-- The single chunk entry of `packW`. -/
def entryW : ChunkEntry :=
  ⟨"alpha beta gamma delta epsilon", [(0, 1), (1, 1), (2, 1), (3, 1), (4, 1)]⟩

/-! ### Structural lemmas about `build_pack` -/

theorem survivors_eq (cs : List String) :
    survivors cs =
      (cs.filter (fun c => 5 ≤ (tokenize c).length)).map (fun c => (c, tokenize c)) := by
  induction cs with
  | nil => rfl
  | cons c cs ih =>
    unfold survivors at ih ⊢
    rw [List.map_cons, List.zip_cons_cons, List.filter_cons, List.filter_cons, ih]
    by_cases h : 5 ≤ (tokenize c).length
    · simp [h]
    · simp [h]

theorem survivors_pair {cs : List String} {pr : String × List String}
    (h : pr ∈ survivors cs) : pr.2 = tokenize pr.1 ∧ 5 ≤ pr.2.length := by
  rw [survivors_eq] at h
  rcases List.mem_map.mp h with ⟨c, hc, hpr⟩
  rcases List.mem_filter.mp hc with ⟨-, hlen⟩
  subst hpr
  exact ⟨rfl, by simpa using hlen⟩

theorem length_chunkTf (cs : List String) :
    (chunkTfOf cs).length = (survivors cs).length := by
  unfold chunkTfOf; rw [List.length_map]

theorem entries_text (cs : List String) :
    (entriesOf cs).map (fun e => e.text) = cs.filter (fun c => 5 ≤ (tokenize c).length) := by
  unfold entriesOf
  rw [List.map_map]
  have h1 : ((fun e : ChunkEntry => e.text) ∘ fun pc : (String × List String) × List (Nat × Nat) => (⟨pc.1.1, pc.2⟩ : ChunkEntry))
      = (fun pr : String × List String => pr.1) ∘ Prod.fst := rfl
  rw [h1, ← List.map_map, List.map_fst_zip _ _ (by rw [length_chunkTf])]
  rw [survivors_eq, List.map_map]
  exact List.map_id _

theorem entries_tf (cs : List String) :
    (entriesOf cs).map (fun e => e.tf) = chunkTfOf cs := by
  unfold entriesOf
  rw [List.map_map]
  have h1 : ((fun e : ChunkEntry => e.tf) ∘ fun pc : (String × List String) × List (Nat × Nat) => (⟨pc.1.1, pc.2⟩ : ChunkEntry))
      = Prod.snd := rfl
  rw [h1, List.map_snd_zip _ _ (by rw [length_chunkTf])]

theorem mem_vocabOf {cs : List String} {t : String} :
    t ∈ vocabOf cs ↔ t ∈ survivingTokens cs := by
  unfold vocabOf sortStrings survivingTokens
  rw [(List.perm_insertionSort _ _).mem_iff, List.mem_dedup]

theorem indexOf_lt_len {t : String} {l : List String} (h : t ∈ l) :
    l.indexOf t < l.length :=
  List.findIdx_lt_length_of_exists ⟨t, h, by simp⟩

theorem chunkTf_shape {cs : List String} {v : List (Nat × Nat)} (hv : v ∈ chunkTfOf cs) :
    ∃ pr ∈ survivors cs,
      v = sortPairs (pr.2.dedup.map (fun t => ((vocabOf cs).indexOf t, pr.2.count t))) := by
  unfold chunkTfOf at hv
  rcases List.mem_map.mp hv with ⟨pr, hpr, hv⟩
  exact ⟨pr, hpr, hv.symm⟩

theorem tf_entry_wf {cs : List String} {v : List (Nat × Nat)} (hv : v ∈ chunkTfOf cs)
    {x : Nat × Nat} (hx : x ∈ v) : x.1 < (vocabOf cs).length ∧ 1 ≤ x.2 := by
  obtain ⟨pr, hpr, rfl⟩ := chunkTf_shape hv
  have hx' := (List.perm_insertionSort pairLe _).mem_iff.mp hx
  obtain ⟨t, ht, hxt⟩ := List.mem_map.mp hx'
  have htmem : t ∈ pr.2 := List.mem_dedup.mp ht
  subst hxt
  refine ⟨indexOf_lt_len ?_, List.count_pos_iff.mpr htmem⟩
  rw [mem_vocabOf]
  unfold survivingTokens
  exact List.mem_flatten.mpr ⟨pr.2, List.mem_map.mpr ⟨pr, hpr, rfl⟩, htmem⟩

theorem buildPack_ok {cs : List String} {p : PackCore} (h : buildPack cs = Except.ok p) :
    p = ⟨vocabOf cs, (survivors cs).length, dfPairsOf cs, entriesOf cs⟩ ∧
      survivors cs ≠ [] := by
  unfold buildPack at h
  by_cases hs : survivors cs = []
  · rw [if_pos hs] at h; cases h
  · rw [if_neg hs] at h
    exact ⟨(Except.ok.inj h).symm, hs⟩

theorem mem_allIdx {cs : List String} {i : Nat} :
    i ∈ allIdxOf cs ↔ ∃ v ∈ chunkTfOf cs, ∃ x ∈ v, x.1 = i := by
  unfold allIdxOf
  rw [List.mem_dedup, List.mem_flatten]
  constructor
  · rintro ⟨L, hL, hiL⟩
    rcases List.mem_map.mp hL with ⟨v, hv, rfl⟩
    rcases List.mem_map.mp hiL with ⟨x, hx, rfl⟩
    exact ⟨v, hv, x, hx, rfl⟩
  · rintro ⟨v, hv, x, hx, rfl⟩
    exact ⟨v.map Prod.fst, List.mem_map_of_mem _ hv, List.mem_map_of_mem _ hx⟩

theorem mem_dfPairs {cs : List String} {x : Nat × Nat} :
    x ∈ dfPairsOf cs ↔ x.1 ∈ allIdxOf cs ∧ x.2 = docFreqOf cs x.1 := by
  unfold dfPairsOf sortPairs
  rw [(List.perm_insertionSort _ _).mem_iff]
  constructor
  · intro hx
    rcases List.mem_map.mp hx with ⟨i, hi, rfl⟩
    exact ⟨hi, rfl⟩
  · rintro ⟨hi, hx⟩
    refine List.mem_map.mpr ⟨x.1, hi, ?_⟩
    rw [← hx]

theorem docFreq_le {cs : List String} {i : Nat} :
    docFreqOf cs i ≤ (survivors cs).length := by
  unfold docFreqOf
  rw [← length_chunkTf]
  exact List.length_filter_le _ _

theorem one_le_idfValue {n d : Nat} (h : d ≤ n) : 1 ≤ idfValue n d := by
  unfold idfValue
  have h2 : (0 : ℝ) < 1 + d := by positivity
  have h3 : (1 : ℝ) + d ≤ 1 + n := by
    have hc : (d : ℝ) ≤ n := Nat.cast_le.mpr h
    linarith
  have hlog : 0 ≤ Real.log ((1 + (n : ℝ)) / (1 + d)) :=
    Real.log_nonneg ((one_le_div h2).mpr h3)
  linarith

theorem dfInPack_entries (cs : List String) (i : Nat) :
    dfInPack ⟨vocabOf cs, (survivors cs).length, dfPairsOf cs, entriesOf cs⟩ i
      = docFreqOf cs i := by
  unfold dfInPack docFreqOf
  show ((entriesOf cs).filter _).length = _
  rw [← entries_tf cs, List.filter_map, List.length_map]
  congr 1
  apply List.filter_congr
  intro e he
  have hwf : ∀ x ∈ e.tf, 1 ≤ x.2 := by
    intro x hx
    have htf : e.tf ∈ chunkTfOf cs := by
      rw [← entries_tf cs]; exact List.mem_map_of_mem _ he
    exact (tf_entry_wf htf hx).2
  show (e.tf.any fun x => x.1 == i && !(x.2 == 0)) = decide (i ∈ e.tf.map Prod.fst)
  rw [Bool.eq_iff_iff]
  simp only [List.any_eq_true, Bool.and_eq_true, beq_iff_eq, Bool.not_eq_true',
    beq_eq_false_iff_ne, decide_eq_true_eq, List.mem_map]
  constructor
  · rintro ⟨x, hx, rfl, -⟩
    exact ⟨x, hx, rfl⟩
  · rintro ⟨x, hx, rfl⟩
    refine ⟨x, hx, rfl, ?_⟩
    have := hwf x hx
    omega

/-! ### Claim theorems about `build_pack` -/

/-- C4: `build_pack` aborts with the descriptive fatal error exactly when no
chunk survives the five-token filter (so no pack value, hence no output
artifact, is produced), and succeeds whenever at least one chunk
survives. -/
theorem emptyIndex_abort (cs : List String) :
    ((∀ c ∈ cs, (tokenize c).length < 5) → buildPack cs = Except.error emptyIndexMsg) ∧
    ((∃ c ∈ cs, 5 ≤ (tokenize c).length) → ∃ p, buildPack cs = Except.ok p) := by
  constructor
  · intro h
    have hs : survivors cs = [] := by
      rw [survivors_eq]
      have : cs.filter (fun c => 5 ≤ (tokenize c).length) = [] := by
        rw [List.filter_eq_nil_iff]
        intro a ha
        simpa using Nat.not_le.mpr (h a ha)
      rw [this]; rfl
    unfold buildPack
    rw [if_pos hs]
  · rintro ⟨c, hc, hlen⟩
    have hs : survivors cs ≠ [] := by
      rw [survivors_eq]
      intro hnil
      rcases List.map_eq_nil_iff.mp hnil with hf
      rw [List.filter_eq_nil_iff] at hf
      exact hf c hc (by simpa using hlen)
    unfold buildPack
    rw [if_neg hs]
    exact ⟨_, rfl⟩

/-- C4 witness: a stopword-only document aborts with the fatal message; the
five-token document builds a pack. -/
theorem emptyIndex_abort_witness :
    buildPack ["the and of to a"] = Except.error emptyIndexMsg ∧
    ∃ p, buildPack csW = Except.ok p :=
  ⟨(emptyIndex_abort ["the and of to a"]).1 (by decide),
   (emptyIndex_abort csW).2 ⟨"alpha beta gamma delta epsilon", by decide, by decide⟩⟩

/-- C6: in every pack `build_pack` returns, every index of every chunk
term-frequency vector is a valid position in `vocab`, and every index of
`idf_pairs` occurs with a nonzero count in the `tf` vector of at least one
chunk entry. -/
theorem vocab_index_consistency (cs : List String) (p : PackCore)
    (h : buildPack cs = Except.ok p) :
    (∀ e ∈ p.chunks, ∀ x ∈ e.tf, x.1 < p.vocab.length) ∧
    (∀ i r, (i, r) ∈ packIdfPairs p → ∃ e ∈ p.chunks, ∃ c, (i, c) ∈ e.tf ∧ c ≠ 0) := by
  obtain ⟨rfl, -⟩ := buildPack_ok h
  constructor
  · intro e he x hx
    have htf : e.tf ∈ chunkTfOf cs := by
      rw [← entries_tf cs]; exact List.mem_map_of_mem _ he
    exact (tf_entry_wf htf hx).1
  · intro i r hir
    rcases List.mem_map.mp hir with ⟨y, hy, hyr⟩
    have hi : y.1 = i := congrArg Prod.fst hyr
    have hidx : i ∈ allIdxOf cs := hi ▸ (mem_dfPairs.mp hy).1
    rcases mem_allIdx.mp hidx with ⟨v, hv, x, hx, hxi⟩
    have hc : 1 ≤ x.2 := (tf_entry_wf hv hx).2
    have hve : v ∈ (entriesOf cs).map (fun e => e.tf) := by rw [entries_tf cs]; exact hv
    rcases List.mem_map.mp hve with ⟨e, he, hev⟩
    refine ⟨e, he, x.2, ?_, by omega⟩
    rw [hev, ← hxi]
    exact hx

/-- C6 witness at the concrete pack of `csW`. -/
theorem vocab_index_consistency_witness : (0, 1).1 < packW.vocab.length :=
  (vocab_index_consistency csW packW (by decide)).1 entryW (by decide) (0, 1) (by decide)

/-- C10: every vocabulary index present in some chunk term-frequency vector
has exactly one entry in `idf_pairs`, so the TF-IDF weight of every stored
`tf` entry can be reconstructed without a missing-IDF lookup. -/
theorem idf_coverage (cs : List String) (p : PackCore) (i : Nat)
    (h : buildPack cs = Except.ok p)
    (hmem : ∃ e ∈ p.chunks, ∃ c, (i, c) ∈ e.tf) :
    (packIdfPairs p).countP (fun x => x.1 == i) = 1 := by
  obtain ⟨rfl, -⟩ := buildPack_ok h
  unfold packIdfPairs
  rw [List.countP_map]
  have hcomp : ((fun x : Nat × ℝ => x.1 == i) ∘
      fun x : Nat × Nat => (x.1, idfValue (survivors cs).length x.2)) = fun x : Nat × Nat => x.1 == i := rfl
  rw [hcomp]
  show (dfPairsOf cs).countP (fun x => x.1 == i) = 1
  unfold dfPairsOf sortPairs
  rw [(List.perm_insertionSort pairLe _).countP_eq, List.countP_map]
  have hcomp2 : ((fun x : Nat × Nat => x.1 == i) ∘
      fun j : Nat => (j, docFreqOf cs j)) = fun j : Nat => j == i := rfl
  rw [hcomp2]
  show (allIdxOf cs).count i = 1
  apply List.count_eq_one_of_mem
  · exact List.nodup_dedup _
  · rcases hmem with ⟨e, he, c, hc⟩
    have htf : e.tf ∈ chunkTfOf cs := by
      rw [← entries_tf cs]; exact List.mem_map_of_mem _ he
    exact mem_allIdx.mpr ⟨e.tf, htf, (i, c), hc, rfl⟩

/-- C10 witness at the concrete pack of `csW`. -/
theorem idf_coverage_witness : (packIdfPairs packW).countP (fun x => x.1 == 0) = 1 :=
  idf_coverage csW packW 0 (by decide) ⟨entryW, by decide, 1, by decide⟩

/-- C2: every `(index, idf)` pair stored in `idf_pairs` satisfies
`idf = ln((1 + N) / (1 + df)) + 1.0`, where `N` is the number of surviving
chunks and `df` the number of chunk entries whose `tf` vector contains the
index with a nonzero count; consequently `idf >= 1`. -/
theorem idf_formula (cs : List String) (p : PackCore) (i : Nat) (r : ℝ)
    (h : buildPack cs = Except.ok p) (hir : (i, r) ∈ packIdfPairs p) :
    r = Real.log ((1 + (p.numDocs : ℝ)) / (1 + (dfInPack p i : ℝ))) + 1 ∧ 1 ≤ r := by
  obtain ⟨rfl, -⟩ := buildPack_ok h
  rcases List.mem_map.mp hir with ⟨y, hy, hyr⟩
  have hi : y.1 = i := congrArg Prod.fst hyr
  have hr : r = idfValue (survivors cs).length y.2 := (congrArg Prod.snd hyr).symm
  have hdf : y.2 = docFreqOf cs i := hi ▸ (mem_dfPairs.mp hy).2
  have hpack : dfInPack ⟨vocabOf cs, (survivors cs).length, dfPairsOf cs, entriesOf cs⟩ i
      = docFreqOf cs i := dfInPack_entries cs i
  constructor
  · rw [hr, hdf, idfValue, hpack]
  · rw [hr, hdf]
    exact one_le_idfValue docFreq_le

/-- C2 witness at the concrete pack of `csW`. -/
theorem idf_formula_witness :
    idfValue 1 1 = Real.log ((1 + (packW.numDocs : ℝ)) / (1 + (dfInPack packW 0 : ℝ))) + 1 ∧
    1 ≤ idfValue 1 1 :=
  idf_formula csW packW 0 (idfValue 1 1) (by decide)
    (List.mem_map.mpr ⟨(0, 1), by decide, rfl⟩)

/-- C5: the norm of every chunk entry equals the square root of the summed
squared TF-IDF weights, except that it is 1 when that sum is zero; in
either case it is strictly positive. -/
theorem norm_positive (cs : List String) (p : PackCore) (e : ChunkEntry)
    (h : buildPack cs = Except.ok p) (he : e ∈ p.chunks) :
    (chunkNormSq p e = 0 → chunkNorm p e = 1) ∧
    (chunkNormSq p e ≠ 0 → chunkNorm p e = Real.sqrt (chunkNormSq p e)) ∧
    0 < chunkNorm p e := by
  have hnn : 0 ≤ chunkNormSq p e := by
    unfold chunkNormSq
    apply List.sum_nonneg
    intro x hx
    rcases List.mem_map.mp hx with ⟨y, -, rfl⟩
    exact sq_nonneg _
  refine ⟨fun h0 => by unfold chunkNorm; rw [if_pos h0],
          fun h0 => by unfold chunkNorm; rw [if_neg h0], ?_⟩
  unfold chunkNorm
  by_cases h0 : chunkNormSq p e = 0
  · rw [if_pos h0]; norm_num
  · rw [if_neg h0]
    exact Real.sqrt_pos.mpr (lt_of_le_of_ne hnn (Ne.symm h0))

/-- C5 witness at the concrete pack of `csW`. -/
theorem norm_positive_witness : 0 < chunkNorm packW entryW :=
  (norm_positive csW packW entryW (by decide) (by decide)).2.2

/-- C1: the pipeline is a pure function of the input chunk sequence (equal
inputs give equal packs, so vocab, idf_pairs and all tf vectors coincide),
and the vocabulary depends only on the set of surviving tokens, not on
their order of appearance (the index assignment is the lexicographic
sort). -/
theorem pipeline_deterministic (cs₁ cs₂ : List String) :
    (cs₁ = cs₂ → buildPack cs₁ = buildPack cs₂) ∧
    (∀ p₁ p₂, buildPack cs₁ = Except.ok p₁ → buildPack cs₂ = Except.ok p₂ →
      (survivingTokens cs₁).toFinset = (survivingTokens cs₂).toFinset →
      p₁.vocab = p₂.vocab) := by
  refine ⟨fun h => by rw [h], ?_⟩
  intro p₁ p₂ h₁ h₂ hts
  obtain ⟨rfl, -⟩ := buildPack_ok h₁
  obtain ⟨rfl, -⟩ := buildPack_ok h₂
  show vocabOf cs₁ = vocabOf cs₂
  have hs₁ : List.Sorted strLe (vocabOf cs₁) := by
    unfold vocabOf sortStrings
    exact List.sorted_insertionSort strLe _
  have hs₂ : List.Sorted strLe (vocabOf cs₂) := by
    unfold vocabOf sortStrings
    exact List.sorted_insertionSort strLe _
  have hn₁ : (vocabOf cs₁).Nodup := by
    unfold vocabOf sortStrings
    exact ((List.perm_insertionSort strLe _).nodup_iff).mpr (List.nodup_dedup _)
  have hn₂ : (vocabOf cs₂).Nodup := by
    unfold vocabOf sortStrings
    exact ((List.perm_insertionSort strLe _).nodup_iff).mpr (List.nodup_dedup _)
  apply List.eq_of_perm_of_sorted ?_ hs₁ hs₂
  rw [List.perm_ext_iff_of_nodup hn₁ hn₂]
  intro a
  rw [mem_vocabOf, mem_vocabOf, ← List.mem_toFinset, ← List.mem_toFinset, hts]

/-- C1 witness: two orderings of the same token set produce packs with the
same vocabulary. -/
theorem pipeline_deterministic_witness : packW.vocab = packW2.vocab :=
  (pipeline_deterministic csW csW2).2 packW packW2 (by decide) (by decide) (by decide)

/-! ### Lemmas relating `split_chunks` to its candidate chunks -/

theorem segFlush_filter (C cur : List String) :
    segFlush (C.filter (fun c => 5 ≤ wordCount c)) cur
      = (candFlush C cur).filter (fun c => 5 ≤ wordCount c) := by
  simp only [segFlush, candFlush]
  by_cases hcur : cur = []
  · rw [if_pos hcur, if_pos hcur]
  · rw [if_neg hcur, if_neg hcur, List.filter_append]
    by_cases hw : 5 ≤ wordCount (String.mk
        (collapseWsFuel (pyStripChars (String.intercalate " " cur).data).length
          (pyStripChars (String.intercalate " " cur).data)))
    · rw [if_pos hw]
      simp [hw]
    · rw [if_neg hw]
      simp [hw]

theorem segStep_cand (st : SegState) (line : String) :
    segStep ⟨st.chunks.filter (fun c => 5 ≤ wordCount c), st.current⟩ line
      = ⟨(candStep st line).chunks.filter (fun c => 5 ≤ wordCount c),
         (candStep st line).current⟩ := by
  unfold segStep candStep
  by_cases h1 : pyStrip line = ""
  · rw [if_pos h1, if_pos h1]
    simp only
    rw [segFlush_filter]
  · rw [if_neg h1, if_neg h1]
    by_cases h2 : startsDash (pyStrip line) ∧ st.current ≠ []
    · rw [if_pos h2, if_pos h2]
      simp only
      rw [segFlush_filter]
    · rw [if_neg h2, if_neg h2]

theorem foldl_seg_cand (lines : List String) (st : SegState) :
    lines.foldl segStep ⟨st.chunks.filter (fun c => 5 ≤ wordCount c), st.current⟩
      = ⟨(lines.foldl candStep st).chunks.filter (fun c => 5 ≤ wordCount c),
         (lines.foldl candStep st).current⟩ := by
  induction lines generalizing st with
  | nil => rfl
  | cons line lines ih =>
    rw [List.foldl_cons, List.foldl_cons, segStep_cand st line]
    exact ih (candStep st line)

theorem splitChunks_eq_filter (text : String) :
    splitChunks text = (segCandidates text).filter (fun c => 5 ≤ wordCount c) := by
  show segFlush ((pySplitlines text).foldl segStep ⟨[], []⟩).chunks
      ((pySplitlines text).foldl segStep ⟨[], []⟩).current = _
  have h := foldl_seg_cand (pySplitlines text) ⟨[], []⟩
  rw [show (⟨[], []⟩ : SegState)
      = ⟨(⟨[], []⟩ : SegState).chunks.filter (fun c => 5 ≤ wordCount c),
         (⟨[], []⟩ : SegState).current⟩ from rfl, h]
  exact segFlush_filter _ _

/-! ### Claim theorems about segmentation and filtering -/

/-- C3 counterexample: the single-line input made of five comma-separated
letters is one candidate chunk; `split_chunks` discards it because it has
only one whitespace-separated word, yet its tokenization has five tokens,
refuting the claim that every discarded candidate had fewer than five
tokens. -/
theorem chunk_filter_counterexample :
    segCandidates "b,c,d,e,f" = ["b,c,d,e,f"] ∧ splitChunks "b,c,d,e,f" = [] ∧
      (tokenize "b,c,d,e,f").length = 5 :=
  ⟨by decide, by decide, by decide⟩

/-- C3 (amended): every chunk entry of a pack has at least five tokens
after tokenization and stopword removal; every chunk discarded by the
five-token filter of `build_pack` had fewer than five such tokens; a
candidate discarded at segmentation had fewer than five
whitespace-separated words (but not necessarily fewer than five
tokens). -/
theorem chunk_filter_invariant (cs : List String) (p : PackCore)
    (h : buildPack cs = Except.ok p) :
    (∀ e ∈ p.chunks, 5 ≤ (tokenize e.text).length) ∧
    (∀ c ∈ cs, c ∉ p.chunks.map (fun e => e.text) → (tokenize c).length < 5) ∧
    (∀ text c, c ∈ segCandidates text → c ∉ splitChunks text → wordCount c < 5) := by
  obtain ⟨rfl, -⟩ := buildPack_ok h
  refine ⟨?_, ?_, ?_⟩
  · intro e he
    unfold entriesOf at he
    rcases List.mem_map.mp he with ⟨pc, hpc, he⟩
    have hp1 : pc.1 ∈ survivors cs := (List.of_mem_zip hpc).1
    have := survivors_pair hp1
    rw [← he]
    show 5 ≤ (tokenize pc.1.1).length
    rw [← this.1]
    exact this.2
  · intro c hc hnot
    show _ < 5
    by_contra hge
    apply hnot
    show c ∈ (entriesOf cs).map (fun e => e.text)
    rw [entries_text cs]
    exact List.mem_filter.mpr ⟨hc, by simpa using Nat.le_of_not_lt hge⟩
  · intro text c hc hnot
    by_contra hge
    apply hnot
    rw [splitChunks_eq_filter]
    exact List.mem_filter.mpr ⟨hc, by simpa using Nat.le_of_not_lt hge⟩

/-- C3 witness: the surviving chunk of the concrete pack has at least five
tokens. -/
theorem chunk_filter_invariant_witness : 5 ≤ (tokenize entryW.text).length :=
  (chunk_filter_invariant csW packW (by decide)).1 entryW (by decide)

/-- C7: whenever the stripped line begins with a hyphen and a space and the
accumulator is non-empty, `split_chunks` flushes the accumulator before the
bullet line is placed into the now-empty accumulator; on the normalized
example input the flush boundaries fall at each bullet and at the blank
line, so a bullet never extends the preceding chunk. -/
theorem bullet_starts_new_chunk :
    (∀ (st : SegState) (line : String), begDashSpace (pyStrip line) = true →
      st.current ≠ [] →
      segStep st line = ⟨segFlush st.chunks st.current, [pyStrip line]⟩) ∧
    segCandidates "Summary\nDid X\n- Built Y\n- Shipped Z\n\nEducation\n..."
      = ["Summary Did X", "- Built Y", "- Shipped Z", "Education ..."] := by
  constructor
  · intro st line hbeg hcur
    have hne : pyStrip line ≠ "" := by
      intro hempty
      rw [hempty] at hbeg
      cases hbeg
    have hdash : startsDash (pyStrip line) = true := by
      unfold begDashSpace at hbeg
      unfold startsDash
      rcases hm : (pyStrip line).data with - | ⟨c, rest⟩
      · rw [hm] at hbeg; cases hbeg
      · rw [hm] at hbeg
        rcases rest with - | ⟨d, rest2⟩
        · cases hbeg
        · simp only [Bool.and_eq_true] at hbeg
          exact hbeg.1
    simp only [segStep]
    rw [if_neg hne, if_pos ⟨hdash, hcur⟩]
  · decide

/-- C7 witness: a concrete bullet line with a non-empty accumulator. -/
theorem bullet_starts_new_chunk_witness :
    segStep ⟨[], ["Did X"]⟩ "- Built Y"
      = ⟨segFlush [] ["Did X"], [pyStrip "- Built Y"]⟩ :=
  bullet_starts_new_chunk.1 ⟨[], ["Did X"]⟩ "- Built Y" (by decide) (by decide)

/-! ### Newline-run lemmas for `normalize_text` -/

theorem hasTriple_tail {a : Char} {l : List Char} (h : hasTriple (a :: l) = false) :
    hasTriple l = false := by
  match l with
  | [] => rfl
  | [b] => rfl
  | b :: c :: t =>
    have h2 : (((a == '\n') && (b == '\n') && (c == '\n')) || hasTriple (b :: c :: t))
        = false := h
    exact (Bool.or_eq_false_iff.mp h2).2

theorem hasTriple_tail2 {l : List Char} (h : hasTriple l = false) :
    hasTriple l.tail = false := by
  cases l with
  | nil => rfl
  | cons a l => exact hasTriple_tail h

theorem noTriple_cons {a : Char} {l : List Char} (h : hasTriple l = false)
    (hside : a ≠ '\n' ∨ l.take 2 ≠ ['\n', '\n']) : hasTriple (a :: l) = false := by
  match l with
  | [] => rfl
  | [b] => rfl
  | b :: c :: t =>
    show (((a == '\n') && (b == '\n') && (c == '\n')) || hasTriple (b :: c :: t)) = false
    rw [h, Bool.or_false]
    rcases hside with ha | htake
    · simp [ha]
    · have hbc : ¬(b = '\n' ∧ c = '\n') := by
        rintro ⟨hb, hc⟩
        exact htake (by rw [hb, hc]; rfl)
      by_cases hb : b = '\n'
      · have hc : ¬c = '\n' := fun hc => hbc ⟨hb, hc⟩
        simp [hc]
      · simp [hb]

theorem noTriple_cons_inv {a : Char} {l : List Char} (h : hasTriple (a :: l) = false) :
    a ≠ '\n' ∨ l.take 2 ≠ ['\n', '\n'] := by
  match l with
  | [] => right; simp
  | [b] => right; simp
  | b :: c :: t =>
    have h2 : (((a == '\n') && (b == '\n') && (c == '\n')) || hasTriple (b :: c :: t))
        = false := h
    have h3 := (Bool.or_eq_false_iff.mp h2).1
    by_cases ha : a = '\n'
    · right
      intro htake
      have hb : b = '\n' := by
        have := congrArg (fun x => x.head?) htake
        simpa using this
      have hc : c = '\n' := by
        have := congrArg (fun x => x.tail.head?) htake
        simpa using this
      rw [ha, hb, hc] at h3
      simp at h3
    · left; exact ha

theorem hasTriple_take : ∀ {l : List Char} {n : Nat}, hasTriple l = false →
    hasTriple (l.take n) = false := by
  intro l
  induction l with
  | nil => intro n _; rw [List.take_nil]; rfl
  | cons a l ih =>
    intro n h
    cases n with
    | zero => rfl
    | succ m =>
      rw [List.take_succ_cons]
      apply noTriple_cons (ih (hasTriple_tail h))
      rcases noTriple_cons_inv h with ha | htake
      · left; exact ha
      · right
        intro hcontra
        apply htake
        rw [List.take_take] at hcontra
        rcases Nat.lt_or_ge m 2 with hm | hm
        · have hlen : (l.take (min 2 m)).length ≤ m := by
            rw [List.length_take]; omega
          rw [hcontra] at hlen
          simp at hlen
          omega
        · rw [Nat.min_eq_left hm] at hcontra
          exact hcontra

theorem hasTriple_drop : ∀ {l : List Char} {n : Nat}, hasTriple l = false →
    hasTriple (l.drop n) = false := by
  intro l
  induction l with
  | nil => intro n _; rw [List.drop_nil]; rfl
  | cons a l ih =>
    intro n h
    cases n with
    | zero => exact h
    | succ m =>
      rw [List.drop_succ_cons]
      exact ih (hasTriple_tail h)

theorem hasTriple_dropWhile {p : Char → Bool} : ∀ {l : List Char},
    hasTriple l = false → hasTriple (l.dropWhile p) = false := by
  intro l
  induction l with
  | nil => intro _; rfl
  | cons a l ih =>
    intro h
    rw [List.dropWhile_cons]
    by_cases hp : p a = true
    · rw [if_pos hp]
      exact ih (hasTriple_tail h)
    · rw [if_neg hp]
      exact h

theorem noTriple_append {A B : List Char} (hA : '\n' ∉ A) (hB : hasTriple B = false) :
    hasTriple (A ++ B) = false := by
  induction A with
  | nil => exact hB
  | cons a A ih =>
    have ha : a ≠ '\n' := fun h => hA (h ▸ List.mem_cons_self a A)
    have hrec : hasTriple (A ++ B) = false := ih (fun h => hA (List.mem_cons_of_mem a h))
    exact noTriple_cons hrec (Or.inl ha)

theorem noTriple_of_noNl {l : List Char} (h : '\n' ∉ l) : hasTriple l = false := by
  have := noTriple_append (A := l) (B := []) h rfl
  simpa using this

/-! ### Character-subset lemmas for the `normalize_text` steps -/

theorem mem_pyReplaceFuel {pat rep : List Char} : ∀ {f : Nat} {l : List Char} {c : Char},
    c ∈ pyReplaceFuel pat rep f l → c ∈ l ∨ c ∈ rep := by
  intro f
  induction f with
  | zero => intro l c h; cases h
  | succ f ih =>
    intro l c h
    match l with
    | [] => cases h
    | a :: rest =>
      unfold pyReplaceFuel at h
      by_cases hm : pat ≠ [] ∧ (a :: rest).take pat.length = pat
      · rw [if_pos hm] at h
        rcases List.mem_append.mp h with hrep | hrec
        · right; exact hrep
        · rcases ih hrec with hl | hrep
          · left; exact List.mem_of_mem_drop hl
          · right; exact hrep
      · rw [if_neg hm] at h
        rcases List.mem_cons.mp h with rfl | hrec
        · left; exact List.mem_cons_self _ _
        · rcases ih hrec with hl | hrep
          · left; exact List.mem_cons_of_mem _ hl
          · right; exact hrep

theorem mem_charReplace {a b : Char} {l : List Char} {c : Char}
    (h : c ∈ charReplace a b l) : c ∈ l ∨ c = b := by
  rcases List.mem_map.mp h with ⟨x, hx, hxc⟩
  by_cases hxa : x = a
  · right; rw [← hxc, if_pos hxa]
  · left; rw [← hxc, if_neg hxa]; exact hx

theorem mem_foldl_charReplace {b : Char} : ∀ {chars : List Char} {acc : List Char} {c : Char},
    c ∈ chars.foldl (fun a ch => charReplace ch b a) acc → c ∈ acc ∨ c = b := by
  intro chars
  induction chars with
  | nil => intro acc c h; left; exact h
  | cons ch chars ih =>
    intro acc c h
    rw [List.foldl_cons] at h
    rcases ih h with hacc | hb
    · exact mem_charReplace hacc
    · right; exact hb

theorem mem_subSpaceNlFuel : ∀ {f : Nat} {l : List Char} {c : Char},
    c ∈ subSpaceNlFuel f l → c ∈ l ∨ c = '\n' := by
  intro f
  induction f with
  | zero => intro l c h; cases h
  | succ f ih =>
    intro l c h
    match l with
    | [] => cases h
    | a :: rest =>
      unfold subSpaceNlFuel at h
      by_cases h1 : a = ' ' ∨ a = '\t'
      · rw [if_pos h1] at h
        by_cases h2 : (rest.dropWhile (fun d => d = ' ' ∨ d = '\t')).head? = some '\n'
        · rw [if_pos h2] at h
          rcases List.mem_cons.mp h with rfl | hrec
          · right; rfl
          · rcases ih hrec with hl | hnl
            · left
              exact List.mem_cons_of_mem _
                (List.dropWhile_subset _ (List.tail_subset _ hl))
            · right; exact hnl
        · rw [if_neg h2] at h
          rcases List.mem_cons.mp h with rfl | hrec
          · left; exact List.mem_cons_self _ _
          · rcases ih hrec with hl | hnl
            · left; exact List.mem_cons_of_mem _ hl
            · right; exact hnl
      · rw [if_neg h1] at h
        rcases List.mem_cons.mp h with rfl | hrec
        · left; exact List.mem_cons_self _ _
        · rcases ih hrec with hl | hnl
          · left; exact List.mem_cons_of_mem _ hl
          · right; exact hnl

theorem mem_subCollapseNlFuel : ∀ {f : Nat} {l : List Char} {c : Char},
    c ∈ subCollapseNlFuel f l → c ∈ l ∨ c = '\n' := by
  intro f
  induction f with
  | zero => intro l c h; cases h
  | succ f ih =>
    intro l c h
    match l with
    | [] => cases h
    | a :: rest =>
      unfold subCollapseNlFuel at h
      by_cases h1 : a = '\n'
      · rw [if_pos h1] at h
        by_cases h2 : 2 ≤ (rest.takeWhile (fun d => d = '\n')).length
        · rw [if_pos h2] at h
          rcases List.mem_cons.mp h with rfl | h
          · right; rfl
          · rcases List.mem_cons.mp h with rfl | hrec
            · right; rfl
            · rcases ih hrec with hl | hnl
              · left; exact List.mem_cons_of_mem _ (List.dropWhile_subset _ hl)
              · right; exact hnl
        · rw [if_neg h2] at h
          rcases List.mem_append.mp h with hpre | hrec
          · rcases List.mem_cons.mp hpre with rfl | hrun
            · left; exact List.mem_cons_self _ _
            · left; exact List.mem_cons_of_mem _ (List.takeWhile_subset _ hrun)
          · rcases ih hrec with hl | hnl
            · left; exact List.mem_cons_of_mem _ (List.dropWhile_subset _ hl)
            · right; exact hnl
      · rw [if_neg h1] at h
        rcases List.mem_cons.mp h with rfl | hrec
        · left; exact List.mem_cons_self _ _
        · rcases ih hrec with hl | hnl
          · left; exact List.mem_cons_of_mem _ hl
          · right; exact hnl

theorem mem_subBulletFuel : ∀ {f : Nat} {l : List Char} {c : Char},
    c ∈ subBulletFuel f l → c ∈ l ∨ c = '\n' ∨ c = '-' ∨ c = ' ' := by
  intro f
  induction f with
  | zero => intro l c h; cases h
  | succ f ih =>
    intro l c h
    match l with
    | [] => cases h
    | a :: rest =>
      unfold subBulletFuel at h
      by_cases h1 : a = '\n' ∧ rest.head? = some '-'
      · rw [if_pos h1] at h
        rcases List.mem_cons.mp h with rfl | h
        · right; left; rfl
        · rcases List.mem_cons.mp h with rfl | h
          · right; right; left; rfl
          · rcases List.mem_cons.mp h with rfl | hrec
            · right; right; right; rfl
            · rcases ih hrec with hl | hk
              · left
                exact List.mem_cons_of_mem _
                  (List.tail_subset _ (List.dropWhile_subset _ hl))
              · right; exact hk
      · rw [if_neg h1] at h
        rcases List.mem_cons.mp h with rfl | hrec
        · left; exact List.mem_cons_self _ _
        · rcases ih hrec with hl | hk
          · left; exact List.mem_cons_of_mem _ hl
          · right; exact hk

theorem dropTrailWs_eq_take : ∀ (l : List Char), ∃ n, dropTrailWs l = l.take n := by
  intro l
  induction l with
  | nil => exact ⟨0, rfl⟩
  | cons c rest ih =>
    rcases ih with ⟨k, hk⟩
    unfold dropTrailWs
    by_cases hc : dropTrailWs rest = [] ∧ isPyWs c = true
    · exact ⟨0, by rw [if_pos hc]; rfl⟩
    · refine ⟨k + 1, ?_⟩
      rw [if_neg hc, hk, List.take_succ_cons]

theorem mem_pyStripChars {l : List Char} {c : Char} (h : c ∈ pyStripChars l) : c ∈ l := by
  unfold pyStripChars at h
  rcases dropTrailWs_eq_take (l.dropWhile isPyWs) with ⟨k, hk⟩
  rw [hk] at h
  exact List.dropWhile_subset _ (List.take_subset _ _ h)

/-! ### Head preservation and triple-freeness of the newline substitutions -/

theorem take2_ne_of_fst {a : Char} {l : List Char} (ha : a ≠ '\n') :
    (a :: l).take 2 ≠ ['\n', '\n'] := by
  intro h
  apply ha
  have := congrArg (fun x => x.head?) h
  cases l <;> simpa using this

theorem take2_ne_of_snd {a b : Char} {l : List Char} (hb : b ≠ '\n') :
    (a :: b :: l).take 2 ≠ ['\n', '\n'] := by
  intro h
  apply hb
  have := congrArg (fun x => x.tail.head?) h
  simpa using this

theorem dropWhile_head_false {α : Type} {p : α → Bool} : ∀ {l : List α} {c : α} {rest : List α},
    l.dropWhile p = c :: rest → p c = false := by
  intro l
  induction l with
  | nil => intro c rest h; cases h
  | cons a l ih =>
    intro c rest h
    rw [List.dropWhile_cons] at h
    by_cases hp : p a = true
    · rw [if_pos hp] at h
      exact ih h
    · rw [if_neg hp] at h
      injection h with h1 h2
      subst h1
      simpa using hp

theorem rec_head_ne {rec tail : List Char}
    (hd : rec = [] ∨ rec.head? = tail.head?)
    (ht : ∀ t0 t', tail = t0 :: t' → t0 ≠ '\n') :
    ∀ r0 r', rec = r0 :: r' → r0 ≠ '\n' := by
  intro r0 r' hr
  rcases hd with hnil | hhead
  · rw [hr] at hnil; cases hnil
  · rw [hr] at hhead
    rcases htail : tail with - | ⟨t0, t'⟩
    · rw [htail] at hhead; cases hhead
    · rw [htail] at hhead
      have heq : r0 = t0 := by simpa using hhead
      rw [heq]
      exact ht t0 t' htail

theorem noTriple_nl_rec {rec : List Char} (hrec : hasTriple rec = false)
    (hhead : ∀ r0 r', rec = r0 :: r' → r0 ≠ '\n') :
    hasTriple ('\n' :: rec) = false := by
  rcases hr : rec with - | ⟨r0, r'⟩
  · rfl
  · rw [hr] at hrec
    exact noTriple_cons hrec (Or.inr (take2_ne_of_fst (hhead r0 r' hr)))

theorem noTriple_nl_nl_rec {rec : List Char} (hrec : hasTriple rec = false)
    (hhead : ∀ r0 r', rec = r0 :: r' → r0 ≠ '\n') :
    hasTriple ('\n' :: '\n' :: rec) = false := by
  rcases hr : rec with - | ⟨r0, r'⟩
  · rfl
  · rw [hr] at hrec
    have hr0 := hhead r0 r' hr
    have inner : hasTriple ('\n' :: r0 :: r') = false :=
      noTriple_cons hrec (Or.inr (take2_ne_of_fst hr0))
    exact noTriple_cons inner (Or.inr (take2_ne_of_snd hr0))

theorem subCollapse_head (f : Nat) (l : List Char) :
    subCollapseNlFuel f l = [] ∨ (subCollapseNlFuel f l).head? = l.head? := by
  match f, l with
  | 0, _ => left; rfl
  | _ + 1, [] => left; rfl
  | f + 1, c :: rest =>
    right
    unfold subCollapseNlFuel
    by_cases hc : c = '\n'
    · rw [if_pos hc]
      by_cases h2 : 2 ≤ (rest.takeWhile (fun d => d = '\n')).length
      · rw [if_pos h2, hc]; rfl
      · rw [if_neg h2]; rfl
    · rw [if_neg hc]; rfl

theorem subCollapseNl_tail_head {rest : List Char} :
    ∀ t0 t', rest.dropWhile (fun d => d = '\n') = t0 :: t' → t0 ≠ '\n' := by
  intro t0 t' ht
  have := dropWhile_head_false ht
  simpa using this

theorem subCollapse_noTriple : ∀ (f : Nat) (l : List Char),
    hasTriple (subCollapseNlFuel f l) = false := by
  intro f
  induction f with
  | zero => intro l; rfl
  | succ f ih =>
    intro l
    match l with
    | [] => rfl
    | c :: rest =>
      unfold subCollapseNlFuel
      by_cases hc : c = '\n'
      · rw [if_pos hc]
        have hrec := ih (rest.dropWhile (fun d => d = '\n'))
        have hhead : ∀ r0 r', subCollapseNlFuel f (rest.dropWhile (fun d => d = '\n'))
            = r0 :: r' → r0 ≠ '\n' :=
          rec_head_ne (subCollapse_head f _) subCollapseNl_tail_head
        by_cases h2 : 2 ≤ (rest.takeWhile (fun d => d = '\n')).length
        · rw [if_pos h2]
          exact noTriple_nl_nl_rec hrec hhead
        · rw [if_neg h2]
          rcases hrun : rest.takeWhile (fun d => d = '\n') with - | ⟨x, run'⟩
          · rw [hc]
            show hasTriple ([] ++ ('\n' :: subCollapseNlFuel f _)) = false
            rw [List.nil_append]
            exact noTriple_nl_rec hrec hhead
          · have hx : x = '\n' := by
              have := List.mem_takeWhile_imp (hrun ▸ List.mem_cons_self x run')
              simpa using this
            have hrun' : run' = [] := by
              rcases run' with - | ⟨y, run''⟩
              · rfl
              · exfalso
                apply h2
                rw [hrun]
                simp
            rw [hc, hx, hrun']
            show hasTriple (('\n' :: ['\n']) ++ subCollapseNlFuel f _) = false
            rw [List.cons_append, List.singleton_append]
            exact noTriple_nl_nl_rec hrec hhead
      · rw [if_neg hc]
        exact noTriple_cons (ih rest) (Or.inl hc)

theorem subBulletFuel_nil (f : Nat) : subBulletFuel f [] = [] := by
  cases f <;> rfl

theorem subBullet_head (f : Nat) (l : List Char) :
    subBulletFuel f l = [] ∨ (subBulletFuel f l).head? = l.head? := by
  match f, l with
  | 0, _ => left; rfl
  | _ + 1, [] => left; rfl
  | f + 1, c :: rest =>
    right
    unfold subBulletFuel
    by_cases h1 : c = '\n' ∧ rest.head? = some '-'
    · rw [if_pos h1, h1.1]; rfl
    · rw [if_neg h1]; rfl

theorem subBullet_noTriple : ∀ (f : Nat) {l : List Char},
    hasTriple l = false → hasTriple (subBulletFuel f l) = false := by
  intro f
  induction f with
  | zero => intro l _; rfl
  | succ f ih =>
    intro l h
    match l with
    | [] => rfl
    | c :: rest =>
      unfold subBulletFuel
      have hrest : hasTriple rest = false := hasTriple_tail h
      by_cases h1 : c = '\n' ∧ rest.head? = some '-'
      · rw [if_pos h1]
        have hrec : hasTriple (subBulletFuel f (rest.tail.dropWhile isPyWs)) = false :=
          ih (hasTriple_dropWhile (hasTriple_tail2 hrest))
        have s1 : hasTriple (' ' :: subBulletFuel f (rest.tail.dropWhile isPyWs)) = false :=
          noTriple_cons hrec (Or.inl (by decide))
        have s2 : hasTriple ('-' :: ' ' :: subBulletFuel f (rest.tail.dropWhile isPyWs))
            = false := noTriple_cons s1 (Or.inl (by decide))
        exact noTriple_cons s2 (Or.inr (take2_ne_of_fst (by decide)))
      · rw [if_neg h1]
        have hrec := ih hrest
        by_cases hc : c = '\n'
        · subst hc
          apply noTriple_cons hrec
          right
          cases rest with
          | nil =>
            rw [subBulletFuel_nil]
            simp
          | cons b rt =>
            by_cases hbn : b = '\n'
            · subst hbn
              have hrtside : rt.take 1 ≠ ['\n'] := by
                rcases noTriple_cons_inv h with hfalse | htake
                · exact absurd rfl hfalse
                · intro hcontra
                  apply htake
                  show ('\n' :: rt).take 2 = _
                  rw [List.take_succ_cons, hcontra]
              cases f with
              | zero => simp [subBulletFuel]
              | succ f2 =>
                unfold subBulletFuel
                by_cases h3 : ('\n' : Char) = '\n' ∧ rt.head? = some '-'
                · rw [if_pos h3]
                  exact take2_ne_of_snd (by decide)
                · rw [if_neg h3]
                  rcases hs : subBulletFuel f2 rt with - | ⟨s0, s'⟩
                  · simp
                  · have hs0 : s0 ≠ '\n' := by
                      apply rec_head_ne (subBullet_head f2 rt) ?_ s0 s' hs
                      intro t0 t' hteq
                      intro ht0
                      apply hrtside
                      rw [hteq, ht0]
                      rfl
                    exact take2_ne_of_snd hs0
            · cases f with
              | zero => simp [subBulletFuel]
              | succ f2 =>
                unfold subBulletFuel
                by_cases h3 : b = '\n' ∧ rt.head? = some '-'
                · exact absurd h3.1 hbn
                · rw [if_neg h3]
                  exact take2_ne_of_fst hbn
        · exact noTriple_cons hrec (Or.inl hc)

theorem pyReplaceFuel_nil (pat rep : List Char) (f : Nat) :
    pyReplaceFuel pat rep f [] = [] := by
  cases f <;> rfl

theorem pyReplace_head {pat rep : List Char} (hrep : rep ≠ []) (f : Nat) (l : List Char) :
    pyReplaceFuel pat rep f l = [] ∨ (pyReplaceFuel pat rep f l).head? = l.head? ∨
      (pyReplaceFuel pat rep f l).head? = rep.head? := by
  match f, l with
  | 0, _ => left; rfl
  | _ + 1, [] => left; rfl
  | f + 1, c :: rest =>
    right
    unfold pyReplaceFuel
    by_cases hm : pat ≠ [] ∧ (c :: rest).take pat.length = pat
    · rw [if_pos hm]
      right
      rcases rep with - | ⟨r0, r''⟩
      · exact absurd rfl hrep
      · rfl
    · rw [if_neg hm]
      left; rfl

theorem pat_no_match_of_head {pat : List Char} {rt : List Char}
    (hpat : pat.head? ≠ some '\n') :
    ¬(pat ≠ [] ∧ ('\n' :: rt).take pat.length = pat) := by
  rintro ⟨hne, htake⟩
  apply hpat
  rcases pat with - | ⟨p0, ps⟩
  · exact absurd rfl hne
  · rw [show (p0 :: ps).length = ps.length + 1 from rfl, List.take_succ_cons] at htake
    injection htake with h1 h2
    rw [← h1]
    rfl

theorem pyReplace_noTriple {pat rep : List Char} (hpat : pat.head? ≠ some '\n')
    (hrepne : rep ≠ []) (hrepnl : '\n' ∉ rep) : ∀ (f : Nat) {l : List Char},
    hasTriple l = false → hasTriple (pyReplaceFuel pat rep f l) = false := by
  intro f
  induction f with
  | zero => intro l _; rfl
  | succ f ih =>
    intro l h
    match l with
    | [] => rfl
    | c :: rest =>
      unfold pyReplaceFuel
      have hrest : hasTriple rest = false := hasTriple_tail h
      by_cases hm : pat ≠ [] ∧ (c :: rest).take pat.length = pat
      · rw [if_pos hm]
        exact noTriple_append hrepnl (ih (hasTriple_drop h))
      · rw [if_neg hm]
        have hrec := ih hrest
        by_cases hc : c = '\n'
        · subst hc
          apply noTriple_cons hrec
          right
          cases rest with
          | nil =>
            rw [pyReplaceFuel_nil]
            simp
          | cons b rt =>
            by_cases hbn : b = '\n'
            · subst hbn
              have hrtside : rt.take 1 ≠ ['\n'] := by
                rcases noTriple_cons_inv h with hfalse | htake
                · exact absurd rfl hfalse
                · intro hcontra
                  apply htake
                  show ('\n' :: rt).take 2 = _
                  rw [List.take_succ_cons, hcontra]
              cases f with
              | zero => simp [pyReplaceFuel]
              | succ f2 =>
                unfold pyReplaceFuel
                rw [if_neg (pat_no_match_of_head hpat)]
                rcases hs : pyReplaceFuel pat rep f2 rt with - | ⟨s0, s'⟩
                · simp
                · have hs0 : s0 ≠ '\n' := by
                    rcases pyReplace_head hrepne f2 rt with hnil | hhead | hrephead
                    · rw [hs] at hnil; cases hnil
                    · rw [hs] at hhead
                      rcases hrt : rt with - | ⟨t0, t'⟩
                      · rw [hrt] at hhead; cases hhead
                      · rw [hrt] at hhead
                        have heq : s0 = t0 := by simpa using hhead
                        rw [heq]
                        intro ht0
                        apply hrtside
                        rw [hrt, ht0]
                        rfl
                    · rw [hs] at hrephead
                      rcases hrp : rep with - | ⟨r0, r''⟩
                      · exact absurd hrp hrepne
                      · rw [hrp] at hrephead
                        have heq : s0 = r0 := by simpa using hrephead
                        rw [heq]
                        intro hr0
                        apply hrepnl
                        rw [hrp, hr0]
                        exact List.mem_cons_self _ _
                  exact take2_ne_of_snd hs0
            · cases f with
              | zero => simp [pyReplaceFuel]
              | succ f2 =>
                unfold pyReplaceFuel
                by_cases h3 : pat ≠ [] ∧ (b :: rt).take pat.length = pat
                · rw [if_pos h3]
                  rcases hrp : rep with - | ⟨r0, r''⟩
                  · exact absurd hrp hrepne
                  · have hr0 : r0 ≠ '\n' := by
                      intro hr0
                      apply hrepnl
                      rw [hrp, hr0]
                      exact List.mem_cons_self _ _
                    exact take2_ne_of_fst hr0
                · rw [if_neg h3]
                  exact take2_ne_of_fst hbn
        · exact noTriple_cons hrec (Or.inl hc)

/-! ### Carriage-return elimination -/

theorem crlfOk_tail {c : Char} {l : List Char} (h : crlfOk (c :: l) = true) :
    crlfOk l = true := by
  unfold crlfOk at h
  rw [Bool.and_eq_true] at h
  exact h.2

theorem noCR_pyReplace_crlf : ∀ (f : Nat) {l : List Char}, crlfOk l = true →
    '\r' ∉ pyReplaceFuel ['\r', '\n'] ['\n'] f l := by
  intro f
  induction f with
  | zero => intro l _ hmem; cases hmem
  | succ f ih =>
    intro l hok hmem
    match l with
    | [] => cases hmem
    | c :: rest =>
      unfold pyReplaceFuel at hmem
      by_cases hm : (['\r', '\n'] : List Char) ≠ [] ∧
          (c :: rest).take (['\r', '\n'] : List Char).length = ['\r', '\n']
      · rw [if_pos hm] at hmem
        rcases List.mem_append.mp hmem with h1 | h2
        · simp at h1
        · cases rest with
          | nil =>
            have := hm.2
            simp at this
          | cons b rest2 =>
            have htake := hm.2
            have hc : c = '\r' ∧ b = '\n' := by
              have hh := congrArg (fun x => x.head?) htake
              have ht := congrArg (fun x => x.tail.head?) htake
              constructor
              · simpa using hh
              · simpa using ht
            have hok2 : crlfOk rest2 = true := crlfOk_tail (crlfOk_tail hok)
            exact ih hok2 h2
      · rw [if_neg hm] at hmem
        rcases List.mem_cons.mp hmem with hcr | hrec
        · apply hm
          refine ⟨by simp, ?_⟩
          have hc : c = '\r' := hcr.symm
          subst hc
          have hhead : rest.head? = some '\n' := by
            unfold crlfOk at hok
            rw [Bool.and_eq_true] at hok
            simpa using hok.1
          cases rest with
          | nil => cases hhead
          | cons b rest2 =>
            have hb : b = '\n' := by simpa using hhead
            rw [hb]
            rfl
        · exact ih (crlfOk_tail hok) hrec

/-! ### Claim theorems about `normalize_text` -/

/-- C8 counterexample: a lone carriage return not followed by a newline
survives `normalize_text` (only the two-character sequence CRLF is
replaced), so the output is not carriage-return-free for every input. -/
theorem normalize_cr_counterexample : '\r' ∈ (normalizeText "a\rb").data := by decide

/-- C8 (amended): whenever every carriage return of the raw input is
immediately followed by a newline (CR only inside CRLF pairs), the output
of `normalize_text` contains no carriage return. -/
theorem normalize_no_cr (raw : String) (h : crlfOk raw.data = true) :
    '\r' ∉ (normalizeText raw).data := by
  simp only [normalizeText, pyReplace]
  set t1 := pyReplaceFuel ['\r', '\n'] ['\n'] raw.data.length raw.data with ht1
  set t2 := bulletChars.foldl (fun acc ch => charReplace ch '-' acc) t1 with ht2
  set t3 := unicodeDashes.foldl (fun acc ch => charReplace ch '-' acc) t2 with ht3
  set t4 := subSpaceNlFuel t3.length t3 with ht4
  set t5 := subCollapseNlFuel t4.length t4 with ht5
  set t6 := subBulletFuel t5.length t5 with ht6
  set t7 := t6.filter (fun c => c.toNat < 128) with ht7
  set t8 := pyReplaceFuel "ap-arker-alt".data "Location: ".data t7.length t7 with ht8
  set t9 := pyReplaceFuel "/envelpe".data " Email: ".data t8.length t8 with ht9
  set t10 := pyReplaceFuel "phone-alt".data " Phone: ".data t9.length t9 with ht10
  have h1 : '\r' ∉ t1 := noCR_pyReplace_crlf _ h
  have h2 : '\r' ∉ t2 := fun hm =>
    (mem_foldl_charReplace hm).elim h1 (fun he => absurd he (by decide))
  have h3 : '\r' ∉ t3 := fun hm =>
    (mem_foldl_charReplace hm).elim h2 (fun he => absurd he (by decide))
  have h4 : '\r' ∉ t4 := fun hm =>
    (mem_subSpaceNlFuel hm).elim h3 (fun he => absurd he (by decide))
  have h5 : '\r' ∉ t5 := fun hm =>
    (mem_subCollapseNlFuel hm).elim h4 (fun he => absurd he (by decide))
  have h6 : '\r' ∉ t6 := fun hm =>
    (mem_subBulletFuel hm).elim h5 (fun hk => by
      rcases hk with he | he | he <;> exact absurd he (by decide))
  have h7 : '\r' ∉ t7 := fun hm => h6 (List.mem_of_mem_filter hm)
  have h8 : '\r' ∉ t8 := fun hm =>
    (mem_pyReplaceFuel hm).elim h7 (fun he => absurd he (by decide))
  have h9 : '\r' ∉ t9 := fun hm =>
    (mem_pyReplaceFuel hm).elim h8 (fun he => absurd he (by decide))
  have h10 : '\r' ∉ t10 := fun hm =>
    (mem_pyReplaceFuel hm).elim h9 (fun he => absurd he (by decide))
  have h11 : '\r' ∉ pyStripChars t10 := fun hm => h10 (mem_pyStripChars hm)
  show '\r' ∉ pyStripChars t10
  exact h11

/-- C8 witness: an input whose carriage return forms a CRLF pair. -/
theorem normalize_no_cr_witness : '\r' ∉ (normalizeText "x\r\ny").data :=
  normalize_no_cr "x\r\ny" (by decide)

/-- C9 counterexample: the non-ASCII character between two blank lines is
deleted by the ASCII strip only after the newline collapse, leaving four
consecutive newlines in the output of `normalize_text`. -/
theorem normalize_triple_counterexample :
    hasTriple (normalizeText ("a\n\n" ++ String.mk [Char.ofNat 233] ++ "\n\nb")).data
      = true := by decide

/-- C9 (amended): for raw inputs consisting solely of ASCII characters (so
the ASCII strip removes nothing), the output of `normalize_text` never
contains three or more consecutive newlines. -/
theorem normalize_no_triple (raw : String) (h : allAscii raw = true) :
    hasTriple (normalizeText raw).data = false := by
  simp only [normalizeText, pyReplace]
  set t1 := pyReplaceFuel ['\r', '\n'] ['\n'] raw.data.length raw.data with ht1
  set t2 := bulletChars.foldl (fun acc ch => charReplace ch '-' acc) t1 with ht2
  set t3 := unicodeDashes.foldl (fun acc ch => charReplace ch '-' acc) t2 with ht3
  set t4 := subSpaceNlFuel t3.length t3 with ht4
  set t5 := subCollapseNlFuel t4.length t4 with ht5
  set t6 := subBulletFuel t5.length t5 with ht6
  set t7 := t6.filter (fun c => c.toNat < 128) with ht7
  set t8 := pyReplaceFuel "ap-arker-alt".data "Location: ".data t7.length t7 with ht8
  set t9 := pyReplaceFuel "/envelpe".data " Email: ".data t8.length t8 with ht9
  set t10 := pyReplaceFuel "phone-alt".data " Phone: ".data t9.length t9 with ht10
  have a0 : ∀ c ∈ raw.data, c.toNat < 128 := by
    intro c hc
    have := List.all_eq_true.mp h c hc
    simpa using this
  have a1 : ∀ c ∈ t1, c.toNat < 128 := fun c hc =>
    (mem_pyReplaceFuel hc).elim (a0 c) (fun hr => by
      have : c = '\n' := by simpa using hr
      rw [this]; decide)
  have a2 : ∀ c ∈ t2, c.toNat < 128 := fun c hc =>
    (mem_foldl_charReplace hc).elim (a1 c) (fun hr => by rw [hr]; decide)
  have a3 : ∀ c ∈ t3, c.toNat < 128 := fun c hc =>
    (mem_foldl_charReplace hc).elim (a2 c) (fun hr => by rw [hr]; decide)
  have a4 : ∀ c ∈ t4, c.toNat < 128 := fun c hc =>
    (mem_subSpaceNlFuel hc).elim (a3 c) (fun hr => by rw [hr]; decide)
  have a5 : ∀ c ∈ t5, c.toNat < 128 := fun c hc =>
    (mem_subCollapseNlFuel hc).elim (a4 c) (fun hr => by rw [hr]; decide)
  have a6 : ∀ c ∈ t6, c.toNat < 128 := fun c hc =>
    (mem_subBulletFuel hc).elim (a5 c) (fun hk => by
      rcases hk with hr | hr | hr <;> (rw [hr]; decide))
  have hident : t7 = t6 :=
    List.filter_eq_self.mpr (fun a ha => decide_eq_true (a6 a ha))
  have hT5 : hasTriple t5 = false := subCollapse_noTriple _ _
  have hT6 : hasTriple t6 = false := subBullet_noTriple _ hT5
  have hT7 : hasTriple t7 = false := by rw [hident]; exact hT6
  have hT8 : hasTriple t8 = false :=
    pyReplace_noTriple (by decide) (by decide) (by decide) _ hT7
  have hT9 : hasTriple t9 = false :=
    pyReplace_noTriple (by decide) (by decide) (by decide) _ hT8
  have hT10 : hasTriple t10 = false :=
    pyReplace_noTriple (by decide) (by decide) (by decide) _ hT9
  have hT11 : hasTriple (pyStripChars t10) = false := by
    unfold pyStripChars
    rcases dropTrailWs_eq_take (t10.dropWhile isPyWs) with ⟨k, hk⟩
    rw [hk]
    exact hasTriple_take (hasTriple_dropWhile hT10)
  show hasTriple (pyStripChars t10) = false
  exact hT11

/-- C9 witness: an ASCII input already containing a long newline run. -/
theorem normalize_no_triple_witness :
    hasTriple (normalizeText "x\n\n\n\ny").data = false :=
  normalize_no_triple "x\n\n\n\ny" (by decide)

end MakePack
